import Mathlib

/-!
# br24radar_pi.h: angle arithmetic, timeouts, tables and state predicates

A shallow embedding of the macros, tables and inline member functions of
`src/br24radar_pi.h`, followed by the properties proved about them.

Conventions of the embedding:

* a C `int` is a Lean `Int` in `[INT_MIN, INT_MAX]`; `int` addition and
  multiplication wrap modulo `2^32` (`wrapInt`), and `%` on `int` is the
  remainder of the division truncated toward zero (`Int.tmod`);
* a finite C `double` is the rational number it denotes (`ℚ`); the products
  and quotients of the scale macros are taken exactly, the `double` addition
  of `MOD_DEGREES` is rounded to binary64 (round to nearest, ties to even,
  `roundDouble`) and has no result on overflow; `fmod` is the remainder of
  the division truncated toward zero, which is exact on `double`s, and the
  `(int)` cast truncates toward zero and has no result when the truncated
  value does not fit in an `int`;
* `time_t` is an unbounded `Int` (its width is implementation defined).
-/

namespace BR24

/-! ## Constants (`#define`s) -/

/-- Macro `#define SPOKES (4096)`. -/
def SPOKES : Int := 4096

/-- Macro `#define LINES_PER_ROTATION (2048)`. -/
def LINES_PER_ROTATION : Int := 2048

/-- Macro `#define RETURNS_PER_LINE (512)`. -/
def RETURNS_PER_LINE : Nat := 512

/-- Macro `#define DEGREES_PER_ROTATION (360)`. -/
def DEGREES_PER_ROTATION : Int := 360

/-- Macro `#define RADARS (2)`. -/
def RADARS : Nat := 2

/-- Macro `#define HEADING_TIMEOUT (5)`. -/
def HEADING_TIMEOUT : Int := 5

/-! ## The C `int` type -/

/-- Smallest value of a 32-bit `int`. -/
def INT_MIN : Int := -2147483648

/-- Largest value of a 32-bit `int`. -/
def INT_MAX : Int := 2147483647

/-- Membership in the range of a 32-bit `int`. -/
def isInt (x : Int) : Prop := INT_MIN ≤ x ∧ x ≤ INT_MAX

instance (x : Int) : Decidable (isInt x) := by
  unfold isInt; exact inferInstance

/-- Reduction of a mathematical integer to the 32-bit two's complement
value an `int` operation produces. -/
def wrapInt (x : Int) : Int := (x + 2147483648) % 4294967296 - 2147483648

/-- The C expression `a + b` on `int`. -/
def intAdd (a b : Int) : Int := wrapInt (a + b)

/-- The C expression `a * b` on `int`. -/
def intMul (a b : Int) : Int := wrapInt (a * b)

/-- The C expression `a % b` on `int`: remainder with the sign of `a`. -/
def intRem (a b : Int) : Int := Int.tmod a b

/-- Type `typedef int SpokeBearing`. -/
abbrev SpokeBearing := Int

/-! ## Modulo-rotation macros -/

/-- Macro `#define MOD_ROTATION(raw) (((raw) + 2 * SPOKES) % SPOKES)`. -/
def MOD_ROTATION (raw : SpokeBearing) : Int :=
  intRem (intAdd raw (intMul 2 SPOKES)) SPOKES

/-- Macro `#define MOD_ROTATION2048(raw) (((raw) + 2 * LINES_PER_ROTATION) % LINES_PER_ROTATION)`. -/
def MOD_ROTATION2048 (raw : SpokeBearing) : Int :=
  intRem (intAdd raw (intMul 2 LINES_PER_ROTATION)) LINES_PER_ROTATION

/-- The C expression `a / b` on `int`: quotient truncated toward zero. -/
def intDiv (a b : Int) : Int := Int.tdiv a b

/-! ## The C `double` type -/

/-- Truncation of a rational toward zero. -/
def truncQ (x : ℚ) : Int := Int.tdiv x.num (x.den : Int)

/-- The C cast `(int)x` of a `double`: the value truncated toward zero; the
cast has no defined result when that value is outside the range of `int`. -/
def castInt (x : ℚ) : Option Int :=
  if INT_MIN ≤ truncQ x ∧ truncQ x ≤ INT_MAX then some (truncQ x) else none

/-- The C library function `fmod(x, y)`: `x - n * y` where `n` is `x / y`
truncated toward zero (only used here with `y = 360`). -/
def fmod (x y : ℚ) : ℚ := x - (truncQ (x / y) : ℚ) * y

/-- Largest finite `double`, `(2^53 - 1) * 2^971`. -/
def DBL_MAX : ℚ := (2 ^ 53 - 1) * 2 ^ 971

/-- Exponent of the binary64 binade of `x`: the integer `e` with
`2^e ≤ |x| < 2^(e+1)`, and `-1022` for magnitudes below `2^(-1022)`
(subnormal numbers and zero). -/
def binadeExp (x : ℚ) : Int := max (Int.log 2 |x|) (-1022)

/-- Spacing of the binary64 grid (53 significant bits) in the binade of `x`. -/
def ulpOf (x : ℚ) : ℚ := (2 : ℚ) ^ (binadeExp x - 52)

/-- Nearest integer to `q`, a tie going to the even neighbour. -/
def roundHalfEven (q : ℚ) : Int :=
  if q - ⌊q⌋ < 1 / 2 then ⌊q⌋
  else if 1 / 2 < q - ⌊q⌋ then ⌊q⌋ + 1
  else if ⌊q⌋ % 2 = 0 then ⌊q⌋ else ⌊q⌋ + 1

/-- Rounding of a real value to binary64 (round to nearest, ties to even),
with the exponent unbounded above: the nearest multiple of the grid spacing. -/
def roundDouble (x : ℚ) : ℚ := (roundHalfEven (x / ulpOf x) : ℚ) * ulpOf x

/-- The rationals that are finite `double` values: on the binary64 grid and
of magnitude at most `DBL_MAX`. -/
def isDouble (x : ℚ) : Prop := roundDouble x = x ∧ |x| ≤ DBL_MAX

instance (x : ℚ) : Decidable (isDouble x) := by
  unfold isDouble; exact inferInstance

/-- The C expression `x + y` on finite `double`s: the exact sum rounded to
binary64; no finite result when the rounded sum exceeds `DBL_MAX`. -/
def dblAdd (x y : ℚ) : Option ℚ :=
  if |roundDouble (x + y)| ≤ DBL_MAX then some (roundDouble (x + y)) else none

/-! ## Degree conversion macros -/

/-- Macro `#define SCALE_RAW_TO_DEGREES(raw) ((raw) * (double)DEGREES_PER_ROTATION / SPOKES)`. -/
def SCALE_RAW_TO_DEGREES (raw : Int) : ℚ :=
  (raw : ℚ) * (DEGREES_PER_ROTATION : ℚ) / (SPOKES : ℚ)

/-- Macro `#define SCALE_RAW_TO_DEGREES2048(raw) ((raw) * (double)DEGREES_PER_ROTATION / LINES_PER_ROTATION)`. -/
def SCALE_RAW_TO_DEGREES2048 (raw : Int) : ℚ :=
  (raw : ℚ) * (DEGREES_PER_ROTATION : ℚ) / (LINES_PER_ROTATION : ℚ)

/-- Macro `#define SCALE_DEGREES_TO_RAW(angle) ((int)((angle) * (double)SPOKES / DEGREES_PER_ROTATION))`. -/
def SCALE_DEGREES_TO_RAW (angle : ℚ) : Option Int :=
  castInt (angle * (SPOKES : ℚ) / (DEGREES_PER_ROTATION : ℚ))

/-- Macro `#define SCALE_DEGREES_TO_RAW2048(angle) ((int)((angle) * (double)LINES_PER_ROTATION / DEGREES_PER_ROTATION))`. -/
def SCALE_DEGREES_TO_RAW2048 (angle : ℚ) : Option Int :=
  castInt (angle * (LINES_PER_ROTATION : ℚ) / (DEGREES_PER_ROTATION : ℚ))

/-- Macro `#define MOD_DEGREES(angle) (fmod(angle + 2 * DEGREES_PER_ROTATION, DEGREES_PER_ROTATION))`,
for a `double` angle: `2 * DEGREES_PER_ROTATION` is an `int` product converted
to `double`, the sum is a `double` addition. -/
def MOD_DEGREES (angle : ℚ) : Option ℚ :=
  (dblAdd angle ((intMul 2 DEGREES_PER_ROTATION : Int) : ℚ)).map
    (fun s => fmod s (DEGREES_PER_ROTATION : ℚ))

/-! ## Timeout macros -/

/-- Macro `#define TIMED_OUT(t, timeout) (t >= timeout)`. -/
def TIMED_OUT (t timeout : Int) : Bool := decide (t ≥ timeout)

/-- Macro `#define NOT_TIMED_OUT(t, timeout) (!TIMED_OUT(t, timeout))`. -/
def NOT_TIMED_OUT (t timeout : Int) : Bool := !TIMED_OUT t timeout

/-! ## Enumerations and tables -/

/-- Enumeration `enum VariationSource { VARIATION_SOURCE_NONE, VARIATION_SOURCE_NMEA,
VARIATION_SOURCE_FIX, VARIATION_SOURCE_WMM }`. -/
inductive VariationSource where
  | VARIATION_SOURCE_NONE
  | VARIATION_SOURCE_NMEA
  | VARIATION_SOURCE_FIX
  | VARIATION_SOURCE_WMM
  deriving DecidableEq, Repr

/-- Numeric value of an enumerator: enumerators without initialiser count
up from zero in declaration order. -/
def VariationSource.toInt : VariationSource → Int
  | .VARIATION_SOURCE_NONE => 0
  | .VARIATION_SOURCE_NMEA => 1
  | .VARIATION_SOURCE_FIX => 2
  | .VARIATION_SOURCE_WMM => 3

/-- Priority of variation sources as the specification words it:
"WMM > FIX > NMEA", each of them above NONE. `specHigherPriority a b` says
that `a` is strictly preferred to `b`. -/
def specHigherPriority : VariationSource → VariationSource → Bool
  | .VARIATION_SOURCE_WMM, .VARIATION_SOURCE_FIX => true
  | .VARIATION_SOURCE_WMM, .VARIATION_SOURCE_NMEA => true
  | .VARIATION_SOURCE_WMM, .VARIATION_SOURCE_NONE => true
  | .VARIATION_SOURCE_FIX, .VARIATION_SOURCE_NMEA => true
  | .VARIATION_SOURCE_FIX, .VARIATION_SOURCE_NONE => true
  | .VARIATION_SOURCE_NMEA, .VARIATION_SOURCE_NONE => true
  | _, _ => false

/-- Table `static const bool HasBitCount2[8]`. -/
def HasBitCount2 : List Bool :=
  [ false,  -- 000
    false,  -- 001
    false,  -- 010
    true,   -- 011
    false,  -- 100
    true,   -- 101
    true,   -- 110
    true ]  -- 111

/-- Number of 1 bits among the eight low binary digits of `n`. -/
def bitCount (n : Nat) : Nat := ((List.range 8).filter (fun k => n.testBit k)).length

/-! ## History register of a scan line -/

/-- Modelled from the spec: the update of one element of `scan_line.history`
(`UINT8 history[RETURNS_PER_LINE + 1]`). The function performing it is not in
the header; its declaration comment reads "Each scan this byte is left
shifted one bit. If the strength (=level) of a return is above the threshold
a 1 is added in the rightmost position, if below threshold, a 0", and the
specification: "each completed rotation shifts all bits left by one and ORs
in 1 if this rotation's intensity exceeded the alarm threshold, 0 otherwise".
The result is truncated to the eight bits of a `UINT8`. -/
def historyStep (h : Nat) (bit : Bool) : Nat :=
  ((h <<< 1) ||| (if bit then 1 else 0)) % 256

/-- Modelled from the spec: the history register after consecutive rotations
contributing the bits `bits`, oldest first, starting from the value `h`. -/
def historyAfter (h : Nat) (bits : List Bool) : Nat := bits.foldl historyStep h

/-! ## Persistent settings and on-screen predicates -/

/-- Structure `struct PersistentSettings`; `wxString` fields are strings, the `double`
field a rational, `int` fields integers. -/
structure PersistentSettings where
  overlay_transparency : Int
  range_index : Int
  verbose : Int
  display_option : Int
  guard_zone_threshold : Int
  guard_zone_render_style : Int
  guard_zone_on_overlay : Int
  trails_on_overlay : Int
  skew_factor : ℚ
  range_units : Int
  range_unit_meters : Int
  max_age : Int
  timed_idle : Int
  idle_run_time : Int
  refreshrate : Int
  «show» : Int
  show_radar : Fin RADARS → Int
  transmit_radar : Fin RADARS → Int
  chart_overlay : Int
  menu_auto_hide : Int
  pass_heading_to_opencpn : Bool
  enable_dual_radar : Bool
  emulator_on : Bool
  drawing_method : Int
  ignore_radar_heading : Int
  reverse_zoom : Int
  threshold_red : Int
  threshold_green : Int
  threshold_blue : Int
  threshold_multi_sweep : Int
  alert_audio_file : String
  mcast_address : String

/-- Read of element `i` of an `int x[RADARS]` array; no result outside the
bounds of the array. -/
def readRadarArray (x : Fin RADARS → Int) (i : Int) : Option Int :=
  if h : 0 ≤ i ∧ i < (RADARS : Int) then
    some (x ⟨i.toNat, by unfold RADARS at *; omega⟩)
  else none

/-- Member function `bool IsRadarOnScreen(int radar)`:
`return m_settings.show > 0 && (m_settings.show_radar[radar] || m_settings.chart_overlay == radar);`
The array is read only when `show > 0` (short-circuit evaluation). -/
def IsRadarOnScreen (m_settings : PersistentSettings) (radar : Int) : Option Bool :=
  if m_settings.show > 0 then
    match readRadarArray m_settings.show_radar radar with
    | some v => some (v != 0 || m_settings.chart_overlay == radar)
    | none => none
  else some false

/-- Member function `bool IsOverlayOnScreen(int radar)`:
`return m_settings.show > 0 && m_settings.chart_overlay == radar;`. -/
def IsOverlayOnScreen (m_settings : PersistentSettings) (radar : Int) : Bool :=
  decide (m_settings.show > 0) && m_settings.chart_overlay == radar

/-- A settings value in which radars are shown and radar `1` is the chart
overlay; used to instantiate statements about the on-screen predicates. -/
def overlaySettings : PersistentSettings where
  overlay_transparency := 5
  range_index := 0
  verbose := 0
  display_option := 0
  guard_zone_threshold := 5
  guard_zone_render_style := 0
  guard_zone_on_overlay := 0
  trails_on_overlay := 0
  skew_factor := 1
  range_units := 0
  range_unit_meters := 1852
  max_age := 6
  timed_idle := 0
  idle_run_time := 30
  refreshrate := 1
  «show» := 1
  show_radar := fun _ => 0
  transmit_radar := fun _ => 0
  chart_overlay := 1
  menu_auto_hide := 0
  pass_heading_to_opencpn := false
  enable_dual_radar := false
  emulator_on := false
  drawing_method := 0
  ignore_radar_heading := 0
  reverse_zoom := 0
  threshold_red := 200
  threshold_green := 100
  threshold_blue := 50
  threshold_multi_sweep := 20
  alert_audio_file := ""
  mcast_address := ""

/-! ## Helper lemmas on `int` arithmetic -/

theorem wrapInt_of_isInt {x : Int} (h : isInt x) : wrapInt x = x := by
  unfold isInt INT_MIN INT_MAX at h
  unfold wrapInt
  omega

theorem intRem_of_nonneg {a b : Int} (ha : 0 ≤ a) (hb : 0 < b) :
    intRem a b = a % b := by
  unfold intRem
  exact Int.tmod_eq_emod ha (le_of_lt hb)

theorem MOD_ROTATION_eq_emod (raw : Int) (h1 : -8192 ≤ raw) (h2 : raw ≤ INT_MAX - 8192) :
    MOD_ROTATION raw = raw % 4096 := by
  unfold INT_MAX at h2
  have hm : intMul 2 SPOKES = 8192 := by decide
  have hw : intAdd raw 8192 = raw + 8192 := by
    unfold intAdd
    apply wrapInt_of_isInt
    unfold isInt INT_MIN INT_MAX
    omega
  unfold MOD_ROTATION
  rw [hm, hw]
  have hs : SPOKES = 4096 := rfl
  rw [hs, intRem_of_nonneg (by omega) (by norm_num)]
  omega

theorem MOD_ROTATION2048_eq_emod (raw : Int) (h1 : -4096 ≤ raw) (h2 : raw ≤ INT_MAX - 4096) :
    MOD_ROTATION2048 raw = raw % 2048 := by
  unfold INT_MAX at h2
  have hm : intMul 2 LINES_PER_ROTATION = 4096 := by decide
  have hw : intAdd raw 4096 = raw + 4096 := by
    unfold intAdd
    apply wrapInt_of_isInt
    unfold isInt INT_MIN INT_MAX
    omega
  unfold MOD_ROTATION2048
  rw [hm, hw]
  have hs : LINES_PER_ROTATION = 2048 := rfl
  rw [hs, intRem_of_nonneg (by omega) (by norm_num)]
  omega

/-! ## Helper lemmas on rational truncation -/

/-- Truncating an integer value leaves it unchanged. -/
theorem truncQ_intCast (n : Int) : truncQ (n : ℚ) = n := by
  unfold truncQ
  simp

/-- On non-negative values truncation toward zero is the floor. -/
theorem truncQ_of_nonneg {x : ℚ} (hx : 0 ≤ x) : truncQ x = ⌊x⌋ := by
  unfold truncQ
  rw [Rat.floor_def]
  have hn : 0 ≤ x.num := Rat.num_nonneg.mpr hx
  exact Int.tdiv_eq_ediv hn (by positivity)

/-- The `(int)` cast of a non-negative value below `2^31` is its floor. -/
theorem castInt_of_nonneg {x : ℚ} (hx : 0 ≤ x) (hlt : x < 2147483648) :
    castInt x = some ⌊x⌋ := by
  unfold castInt
  rw [truncQ_of_nonneg hx]
  have h0 : (0 : Int) ≤ ⌊x⌋ := Int.floor_nonneg.mpr hx
  have h1 : ⌊x⌋ < 2147483648 := by
    rw [Int.floor_lt]; exact_mod_cast hlt
  have : INT_MIN ≤ ⌊x⌋ ∧ ⌊x⌋ ≤ INT_MAX := by
    unfold INT_MIN INT_MAX; omega
  rw [if_pos this]

/-- The `(int)` cast of a value that is an `int` returns it. -/
theorem castInt_intCast (n : Int) (h : isInt n) : castInt (n : ℚ) = some n := by
  unfold castInt
  rw [truncQ_intCast]
  exact if_pos h

/-- The floor of `y` is the floor of `2 * y` halved. -/
theorem floor_half (y : ℚ) : ⌊y⌋ = ⌊2 * y⌋ / 2 := by
  rw [Int.floor_eq_iff]
  have h1 : ((⌊2 * y⌋ : Int) : ℚ) ≤ 2 * y := Int.floor_le _
  have h2 : 2 * y < ((⌊2 * y⌋ : Int) : ℚ) + 1 := Int.lt_floor_add_one _
  have h3 : 2 * (⌊2 * y⌋ / 2) ≤ ⌊2 * y⌋ := by omega
  have h4 : ⌊2 * y⌋ ≤ 2 * (⌊2 * y⌋ / 2) + 1 := by omega
  have h3q : (2 : ℚ) * ((⌊2 * y⌋ / 2 : Int) : ℚ) ≤ ((⌊2 * y⌋ : Int) : ℚ) := by exact_mod_cast h3
  have h4q : ((⌊2 * y⌋ : Int) : ℚ) ≤ 2 * ((⌊2 * y⌋ / 2 : Int) : ℚ) + 1 := by exact_mod_cast h4
  constructor <;> linarith

/-! ## Helper lemmas on binary64 rounding -/

/-- Rounding to the nearest integer goes up by at most one half. -/
theorem roundHalfEven_le (q : ℚ) : (roundHalfEven q : ℚ) ≤ q + 1 / 2 := by
  have h1 : ((⌊q⌋ : Int) : ℚ) ≤ q := Int.floor_le q
  unfold roundHalfEven
  split_ifs with a b c
  · linarith
  · push_cast; linarith
  · linarith
  · push_cast; linarith

/-- Rounding a non-negative value gives a non-negative integer. -/
theorem roundHalfEven_nonneg {q : ℚ} (hq : 0 ≤ q) : 0 ≤ roundHalfEven q := by
  have h0 : (0 : Int) ≤ ⌊q⌋ := Int.floor_nonneg.mpr hq
  unfold roundHalfEven
  split_ifs <;> omega

/-- Rounding an integer leaves it unchanged. -/
theorem roundHalfEven_intCast (n : Int) : roundHalfEven (n : ℚ) = n := by
  unfold roundHalfEven
  simp

/-- A value less than one half above `n` rounds down to `n`. -/
theorem roundHalfEven_of_lt_half (q : ℚ) (n : Int) (h1 : (n : ℚ) ≤ q) (h2 : q < n + 1 / 2) :
    roundHalfEven q = n := by
  have hf : ⌊q⌋ = n := by
    rw [Int.floor_eq_iff]; constructor <;> linarith
  unfold roundHalfEven
  rw [hf, if_pos (by linarith)]

/-- A value less than one half below `n` rounds up to `n`. -/
theorem roundHalfEven_of_gt_half (q : ℚ) (n : Int) (h1 : (n : ℚ) - 1 / 2 < q) (h2 : q < n) :
    roundHalfEven q = n := by
  have hf : ⌊q⌋ = n - 1 := by
    rw [Int.floor_eq_iff]; push_cast; constructor <;> linarith
  unfold roundHalfEven
  rw [hf]
  push_cast
  rw [if_neg (by linarith), if_pos (by linarith)]
  ring

/-- The grid spacing is positive. -/
theorem ulpOf_pos (x : ℚ) : 0 < ulpOf x := by
  unfold ulpOf
  positivity

/-- The binade exponent of a value with `2^e ≤ |x| < 2^(e+1)`, `e ≥ -1022`. -/
theorem binadeExp_eq (x : ℚ) (e : Int) (he : -1022 ≤ e)
    (h1 : (2 : ℚ) ^ e ≤ |x|) (h2 : |x| < (2 : ℚ) ^ (e + 1)) : binadeExp x = e := by
  have hpos : 0 < |x| := lt_of_lt_of_le (by positivity) h1
  have a1 : e ≤ Int.log 2 |x| := by
    rw [← Int.zpow_le_iff_le_log (by norm_num) hpos]; exact_mod_cast h1
  have a2 : Int.log 2 |x| < e + 1 := by
    rw [← Int.lt_zpow_iff_log_lt (by norm_num) hpos]; exact_mod_cast h2
  unfold binadeExp
  omega

/-- Rounding to binary64 keeps non-negative values non-negative. -/
theorem roundDouble_nonneg {x : ℚ} (hx : 0 ≤ x) : 0 ≤ roundDouble x := by
  unfold roundDouble
  have hu := ulpOf_pos x
  have hq : 0 ≤ x / ulpOf x := div_nonneg hx (le_of_lt hu)
  have hn : (0 : ℚ) ≤ (roundHalfEven (x / ulpOf x) : ℚ) := by
    exact_mod_cast roundHalfEven_nonneg hq
  positivity

/-- Zero is rounded to zero. -/
theorem roundDouble_zero : roundDouble 0 = 0 := by
  unfold roundDouble
  have : roundHalfEven (0 / ulpOf 0) = 0 := by
    rw [zero_div]; exact_mod_cast roundHalfEven_intCast 0
  rw [this]; simp

/-- A positive value up to `DBL_MAX + 720` is rounded to at most `DBL_MAX`. -/
theorem roundDouble_le_max {x : ℚ} (h0 : 0 < x) (h1 : x ≤ DBL_MAX + 720) :
    roundDouble x ≤ DBL_MAX := by
  have hmax : DBL_MAX = (2 ^ 53 - 1) * (2 : ℚ) ^ (971 : Int) := by
    unfold DBL_MAX; norm_num
  have habs : |x| = x := abs_of_pos h0
  have hx1024 : x < (2 : ℚ) ^ (1024 : Int) := by
    refine lt_of_le_of_lt h1 ?_
    unfold DBL_MAX; norm_num
  have hlog : Int.log 2 |x| < 1024 := by
    rw [← Int.lt_zpow_iff_log_lt (by norm_num) (by rw [habs]; exact h0), habs]
    exact_mod_cast hx1024
  have hxlt : x < (2 : ℚ) ^ (Int.log 2 |x| + 1) := by
    have this : |x| < ((2 : ℕ) : ℚ) ^ (Int.log 2 |x| + 1) :=
      Int.lt_zpow_succ_log_self (by norm_num) |x|
    rw [habs] at this ⊢
    exact_mod_cast this
  have he1 : Int.log 2 |x| ≤ binadeExp x := by unfold binadeExp; omega
  have he2 : binadeExp x ≤ 1023 := by unfold binadeExp; omega
  have hxe : x < (2 : ℚ) ^ (binadeExp x + 1) :=
    lt_of_lt_of_le hxlt (zpow_le_zpow_right₀ (by norm_num) (by omega))
  have hu : 0 < ulpOf x := ulpOf_pos x
  have hsplit : (2 : ℚ) ^ (binadeExp x + 1) = 2 ^ 53 * ulpOf x := by
    unfold ulpOf
    have : binadeExp x + 1 = (53 : Int) + (binadeExp x - 52) := by ring
    rw [this, zpow_add₀ (by norm_num)]
    norm_num
  have hn := roundHalfEven_le (x / ulpOf x)
  unfold roundDouble
  rcases lt_or_le (binadeExp x) 1023 with hlt | hge
  · -- below the top binade the result is at most `2^(e+1) ≤ 2^1023`
    have hq : x / ulpOf x < 2 ^ 53 := by
      rw [div_lt_iff₀ hu, ← hsplit]; exact hxe
    have hnq : (roundHalfEven (x / ulpOf x) : ℚ) < ((2 ^ 53 + 1 : Int) : ℚ) := by
      push_cast; linarith
    have hni : roundHalfEven (x / ulpOf x) ≤ 2 ^ 53 := by
      have := Int.cast_lt.mp hnq
      omega
    have hnq2 : (roundHalfEven (x / ulpOf x) : ℚ) ≤ 2 ^ 53 := by exact_mod_cast hni
    have hpow : (2 : ℚ) ^ (binadeExp x + 1) ≤ (2 : ℚ) ^ (1023 : Int) :=
      zpow_le_zpow_right₀ (by norm_num) (by omega)
    have hbig : (2 : ℚ) ^ (1023 : Int) ≤ DBL_MAX := by
      unfold DBL_MAX; norm_num
    calc (roundHalfEven (x / ulpOf x) : ℚ) * ulpOf x
        ≤ 2 ^ 53 * ulpOf x := mul_le_mul_of_nonneg_right hnq2 (le_of_lt hu)
      _ = (2 : ℚ) ^ (binadeExp x + 1) := hsplit.symm
      _ ≤ (2 : ℚ) ^ (1023 : Int) := hpow
      _ ≤ DBL_MAX := hbig
  · -- in the top binade the spacing is `2^971` and `720` is less than half of it
    have he : binadeExp x = 1023 := by omega
    have hue : ulpOf x = (2 : ℚ) ^ (971 : Int) := by
      unfold ulpOf; rw [he]; norm_num
    have hbigu : (1440 : ℚ) < ulpOf x := by rw [hue]; norm_num
    have hq : x / ulpOf x < 2 ^ 53 - 1 + 1 / 2 := by
      rw [div_lt_iff₀ hu]
      have : x ≤ (2 ^ 53 - 1) * ulpOf x + 720 := by rw [hue, ← hmax]; exact h1
      nlinarith
    have hnq : (roundHalfEven (x / ulpOf x) : ℚ) < ((2 ^ 53 : Int) : ℚ) := by
      push_cast; linarith
    have hni : roundHalfEven (x / ulpOf x) ≤ 2 ^ 53 - 1 := by
      have := Int.cast_lt.mp hnq
      omega
    have hnq2 : (roundHalfEven (x / ulpOf x) : ℚ) ≤ 2 ^ 53 - 1 := by exact_mod_cast hni
    calc (roundHalfEven (x / ulpOf x) : ℚ) * ulpOf x
        ≤ (2 ^ 53 - 1) * ulpOf x := mul_le_mul_of_nonneg_right hnq2 (le_of_lt hu)
      _ = DBL_MAX := by rw [hue, hmax]

/-- Rounding to binary64 in a known binade. -/
theorem roundDouble_eq (x : ℚ) (e n : Int) (he : -1022 ≤ e)
    (h1 : (2 : ℚ) ^ e ≤ |x|) (h2 : |x| < (2 : ℚ) ^ (e + 1))
    (hn : roundHalfEven (x / (2 : ℚ) ^ (e - 52)) = n) :
    roundDouble x = (n : ℚ) * (2 : ℚ) ^ (e - 52) := by
  unfold roundDouble ulpOf
  rw [binadeExp_eq x e he h1 h2, hn]

/-- A value `n * 2^(e-52)` in the binade `e`, of magnitude at most `DBL_MAX`, is a `double`. -/
theorem isDouble_of_grid (x : ℚ) (e n : Int) (he : -1022 ≤ e)
    (h1 : (2 : ℚ) ^ e ≤ |x|) (h2 : |x| < (2 : ℚ) ^ (e + 1))
    (hx : x / (2 : ℚ) ^ (e - 52) = (n : ℚ)) (hmax : |x| ≤ DBL_MAX) : isDouble x := by
  refine ⟨?_, hmax⟩
  rw [roundDouble_eq x e n he h1 h2 (by rw [hx]; exact roundHalfEven_intCast n), ← hx]
  have : (2 : ℚ) ^ (e - 52) ≠ 0 := by positivity
  field_simp

/-- The value of `fmod` from the integer quotient, for a non-negative dividend. -/
theorem fmod_eq (x y : ℚ) (n : Int) (hx : 0 ≤ x) (hy : 0 < y)
    (h1 : (n : ℚ) * y ≤ x) (h2 : x < ((n : ℚ) + 1) * y) : fmod x y = x - (n : ℚ) * y := by
  unfold fmod
  rw [truncQ_of_nonneg (div_nonneg hx (le_of_lt hy))]
  have : ⌊x / y⌋ = n := by
    rw [Int.floor_eq_iff, le_div_iff₀ hy, div_lt_iff₀ hy]
    exact ⟨h1, h2⟩
  rw [this]

/-! ## Helper lemmas on the history register -/

/-- The history register always fits in eight bits after an update. -/
theorem historyStep_lt (h : Nat) (b : Bool) : historyStep h b < 256 := by
  unfold historyStep
  exact Nat.mod_lt _ (by norm_num)

/-- After an update the least significant bit is the contributed bit. -/
theorem historyStep_testBit_zero (h : Nat) (b : Bool) :
    (historyStep h b).testBit 0 = b := by
  unfold historyStep
  have e : (256 : Nat) = 2 ^ 8 := by norm_num
  rw [e, Nat.testBit_mod_two_pow]
  cases b <;> simp

/-- An update moves bit `j` of the register to bit `j + 1`, below bit 8. -/
theorem historyStep_testBit_succ (h : Nat) (b : Bool) (j : Nat) (hj : j + 1 < 8) :
    (historyStep h b).testBit (j + 1) = h.testBit j := by
  unfold historyStep
  have e : (256 : Nat) = 2 ^ 8 := by norm_num
  rw [e, Nat.testBit_mod_two_pow]
  have h1 : Nat.testBit 1 (j + 1) = false := by
    rw [Nat.testBit_succ]; simp
  cases b <;> simp [hj, Nat.testBit_shiftLeft, h1]

/-- One more rotation is one more update of the register. -/
theorem historyAfter_append (h : Nat) (l : List Bool) (b : Bool) :
    historyAfter h (l ++ [b]) = historyStep (historyAfter h l) b := by
  unfold historyAfter
  simp [List.foldl_append]

/-- Bit `j` of the register, `j < 8`, is the bit contributed `j` rotations ago. -/
theorem historyAfter_testBit (h : Nat) (bits : List Bool) :
    ∀ j, j < bits.length → j < 8 →
      bits[bits.length - 1 - j]? = some ((historyAfter h bits).testBit j) := by
  induction bits using List.reverseRecOn with
  | nil => intro j hj; simp at hj
  | append_singleton l b ih =>
    intro j hj hj8
    rw [historyAfter_append]
    simp only [List.length_append, List.length_singleton] at hj ⊢
    cases j with
    | zero =>
      rw [historyStep_testBit_zero]
      simp
    | succ j =>
      rw [historyStep_testBit_succ _ _ _ hj8]
      have hjl : j < l.length := by omega
      have := ih j hjl (by omega)
      rw [← this]
      have e : l.length + 1 - 1 - (j + 1) = l.length - 1 - j := by omega
      rw [e]
      exact List.getElem?_append_left (by omega)

/-- Eight updates overwrite the initial register value entirely. -/
theorem historyAfter_length_eight (x y : Nat) (l : List Bool) (hl : l.length = 8) :
    historyAfter x l = historyAfter y l := by
  have hx : historyAfter x l < 2 ^ 8 := by
    obtain ⟨l', b, rfl⟩ : ∃ l' b, l = l' ++ [b] := by
      rcases List.eq_nil_or_concat l with h | ⟨l', b, h⟩
      · subst h; simp at hl
      · exact ⟨l', b, by simpa using h⟩
    rw [historyAfter_append]; exact historyStep_lt _ _
  have hy : historyAfter y l < 2 ^ 8 := by
    obtain ⟨l', b, rfl⟩ : ∃ l' b, l = l' ++ [b] := by
      rcases List.eq_nil_or_concat l with h | ⟨l', b, h⟩
      · subst h; simp at hl
      · exact ⟨l', b, by simpa using h⟩
    rw [historyAfter_append]; exact historyStep_lt _ _
  apply Nat.eq_of_testBit_eq
  intro i
  by_cases hi : i < 8
  · have h1 := historyAfter_testBit x l i (by omega) hi
    have h2 := historyAfter_testBit y l i (by omega) hi
    rw [h1] at h2
    exact Option.some.inj h2
  · have hi8 : 8 ≤ i := by omega
    rw [Nat.testBit_lt_two_pow (lt_of_lt_of_le hx (Nat.pow_le_pow_right (by norm_num) hi8)),
      Nat.testBit_lt_two_pow (lt_of_lt_of_le hy (Nat.pow_le_pow_right (by norm_num) hi8))]

/-! ## Wrapping of raw bearings -/

/-- C1 (counterexample): the bearing `-8193` is a 32-bit `int`, and both wrap
macros return `-1` for it, which is not in `[0, N)`. -/
theorem mod_rotation_not_always_in_range :
    isInt (-8193) ∧
    MOD_ROTATION2048 (-8193) = -1 ∧ MOD_ROTATION (-8193) = -1 ∧
    ¬ (0 ≤ MOD_ROTATION2048 (-8193)) ∧ ¬ (0 ≤ MOD_ROTATION (-8193)) := by
  decide

/-- C1 (amended): a bearing `raw` with `-2N ≤ raw ≤ INT_MAX - 2N` is wrapped
into a valid slot index: `MOD_ROTATION2048(raw)` lies in `[0, 2048)` when
`-4096 ≤ raw ≤ INT_MAX - 4096`, and `MOD_ROTATION(raw)` lies in `[0, 4096)`
when `-8192 ≤ raw ≤ INT_MAX - 8192`. -/
theorem mod_rotation_in_range (raw2048 raw4096 : Int)
    (h1 : -(2 * LINES_PER_ROTATION) ≤ raw2048)
    (h2 : raw2048 ≤ INT_MAX - 2 * LINES_PER_ROTATION)
    (h3 : -(2 * SPOKES) ≤ raw4096)
    (h4 : raw4096 ≤ INT_MAX - 2 * SPOKES) :
    (0 ≤ MOD_ROTATION2048 raw2048 ∧ MOD_ROTATION2048 raw2048 < LINES_PER_ROTATION) ∧
    (0 ≤ MOD_ROTATION raw4096 ∧ MOD_ROTATION raw4096 < SPOKES) := by
  have hl : LINES_PER_ROTATION = 2048 := rfl
  have hs : SPOKES = 4096 := rfl
  rw [hl] at h1 h2
  rw [hs] at h3 h4
  have hmax : INT_MAX = 2147483647 := rfl
  rw [hmax] at h2 h4
  have e1 := MOD_ROTATION2048_eq_emod (raw2048) (by omega) (by rw [hmax]; omega)
  have e2 := MOD_ROTATION_eq_emod (raw4096) (by omega) (by rw [hmax]; omega)
  rw [e1, e2, hl, hs]
  omega

/-- Wrapping of the bearings `-1` (coarse) and `-8192` (fine). -/
theorem mod_rotation_in_range_witness :
    (0 ≤ MOD_ROTATION2048 (-1) ∧ MOD_ROTATION2048 (-1) < LINES_PER_ROTATION) ∧
    (0 ≤ MOD_ROTATION (-8192) ∧ MOD_ROTATION (-8192) < SPOKES) :=
  mod_rotation_in_range (-1) (-8192) (by decide) (by decide) (by decide) (by decide)

/-- C2: wrapping is periodic with period `N` at both resolutions. For a
bearing `b` with `-2N ≤ b` and `b + 3N ≤ INT_MAX`,
`MOD_ROTATION2048(b + 2048) = MOD_ROTATION2048(b)` and
`MOD_ROTATION(b + 4096) = MOD_ROTATION(b)`; bearing `N` wraps to the slot of
bearing `0`, which is slot `0`, and bearing `-1` wraps to slot `N - 1`. -/
theorem mod_rotation_periodic (b c : Int)
    (hb1 : -(2 * LINES_PER_ROTATION) ≤ b)
    (hb2 : b + 3 * LINES_PER_ROTATION ≤ INT_MAX)
    (hc1 : -(2 * SPOKES) ≤ c)
    (hc2 : c + 3 * SPOKES ≤ INT_MAX) :
    MOD_ROTATION2048 (intAdd b 2048) = MOD_ROTATION2048 b ∧
    MOD_ROTATION (intAdd c 4096) = MOD_ROTATION c ∧
    (MOD_ROTATION2048 LINES_PER_ROTATION = MOD_ROTATION2048 0 ∧ MOD_ROTATION2048 0 = 0 ∧
      MOD_ROTATION2048 (-1) = 2047) ∧
    (MOD_ROTATION SPOKES = MOD_ROTATION 0 ∧ MOD_ROTATION 0 = 0 ∧
      MOD_ROTATION (-1) = 4095) := by
  have hl : LINES_PER_ROTATION = 2048 := rfl
  have hs : SPOKES = 4096 := rfl
  have hmax : INT_MAX = 2147483647 := rfl
  rw [hl] at hb1 hb2
  rw [hs] at hc1 hc2
  rw [hmax] at hb2 hc2
  have hwb : intAdd b 2048 = b + 2048 := by
    unfold intAdd
    apply wrapInt_of_isInt
    unfold isInt INT_MIN INT_MAX
    omega
  have hwc : intAdd c 4096 = c + 4096 := by
    unfold intAdd
    apply wrapInt_of_isInt
    unfold isInt INT_MIN INT_MAX
    omega
  refine ⟨?_, ?_, ⟨by decide, by decide, by decide⟩, ⟨by decide, by decide, by decide⟩⟩
  · have e1 := MOD_ROTATION2048_eq_emod (b + 2048) (by omega) (by rw [hmax]; omega)
    have e2 := MOD_ROTATION2048_eq_emod (b) (by omega) (by rw [hmax]; omega)
    rw [hwb, e1, e2]
    omega
  · have e1 := MOD_ROTATION_eq_emod (c + 4096) (by omega) (by rw [hmax]; omega)
    have e2 := MOD_ROTATION_eq_emod (c) (by omega) (by rw [hmax]; omega)
    rw [hwc, e1, e2]
    omega

/-- Periodicity at the bearings `-4096` (coarse) and `-8192` (fine), the
smallest ones covered. -/
theorem mod_rotation_periodic_witness :
    MOD_ROTATION2048 (intAdd (-4096) 2048) = MOD_ROTATION2048 (-4096) ∧
    MOD_ROTATION (intAdd (-8192) 4096) = MOD_ROTATION (-8192) ∧
    (MOD_ROTATION2048 LINES_PER_ROTATION = MOD_ROTATION2048 0 ∧ MOD_ROTATION2048 0 = 0 ∧
      MOD_ROTATION2048 (-1) = 2047) ∧
    (MOD_ROTATION SPOKES = MOD_ROTATION 0 ∧ MOD_ROTATION 0 = 0 ∧
      MOD_ROTATION (-1) = 4095) :=
  mod_rotation_periodic (-4096) (-8192) (by decide) (by decide) (by decide) (by decide)

/-! ## Degree conversions -/

/-- C3: converting a raw bearing to degrees and back is the identity: for
`raw` in `[0, 4096)`, `SCALE_DEGREES_TO_RAW(SCALE_RAW_TO_DEGREES(raw)) = raw`,
and for `raw` in `[0, 2048)`,
`SCALE_DEGREES_TO_RAW2048(SCALE_RAW_TO_DEGREES2048(raw)) = raw`, the
arithmetic being exact rational and the cast truncating toward zero. -/
theorem scale_degrees_raw_roundtrip (raw4096 raw2048 : Int)
    (h1 : 0 ≤ raw4096) (h2 : raw4096 < SPOKES)
    (h3 : 0 ≤ raw2048) (h4 : raw2048 < LINES_PER_ROTATION) :
    SCALE_DEGREES_TO_RAW (SCALE_RAW_TO_DEGREES raw4096) = some raw4096 ∧
    SCALE_DEGREES_TO_RAW2048 (SCALE_RAW_TO_DEGREES2048 raw2048) = some raw2048 := by
  have hl : LINES_PER_ROTATION = 2048 := rfl
  have hs : SPOKES = 4096 := rfl
  have hd : DEGREES_PER_ROTATION = 360 := rfl
  rw [hs] at h2
  rw [hl] at h4
  unfold SCALE_DEGREES_TO_RAW SCALE_RAW_TO_DEGREES SCALE_DEGREES_TO_RAW2048
    SCALE_RAW_TO_DEGREES2048
  rw [hl, hs, hd]
  have e1 : (raw4096 : ℚ) * ((360 : Int) : ℚ) / ((4096 : Int) : ℚ) * ((4096 : Int) : ℚ)
      / ((360 : Int) : ℚ) = (raw4096 : ℚ) := by
    push_cast; field_simp
  have e2 : (raw2048 : ℚ) * ((360 : Int) : ℚ) / ((2048 : Int) : ℚ) * ((2048 : Int) : ℚ)
      / ((360 : Int) : ℚ) = (raw2048 : ℚ) := by
    push_cast; field_simp
  rw [e1, e2]
  constructor
  · apply castInt_intCast
    unfold isInt INT_MIN INT_MAX
    omega
  · apply castInt_intCast
    unfold isInt INT_MIN INT_MAX
    omega

/-- Round trip of the largest raw bearings, `4095` and `2047`. -/
theorem scale_degrees_raw_roundtrip_witness :
    SCALE_DEGREES_TO_RAW (SCALE_RAW_TO_DEGREES 4095) = some 4095 ∧
    SCALE_DEGREES_TO_RAW2048 (SCALE_RAW_TO_DEGREES2048 2047) = some 2047 :=
  scale_degrees_raw_roundtrip 4095 2047 (by decide) (by decide) (by decide) (by decide)

/-- C6 (counterexample): the `double` nearest to `0.1`,
`3602879701896397 / 2^55`, is at least `-720`; the `double` sum with `720` is
rounded to `6334066585291981 / 2^43`, so `MOD_DEGREES` returns
`879609302221 / 2^43` (about `0.10000000000002274`), and the angle minus this
result, `-819 / 2^55`, is not an integer multiple of `360`. -/
theorem mod_degrees_sum_is_rounded :
    isDouble (3602879701896397 / 36028797018963968) ∧
    (-720 : ℚ) ≤ 3602879701896397 / 36028797018963968 ∧
    dblAdd (3602879701896397 / 36028797018963968) 720
      = some (6334066585291981 / 8796093022208) ∧
    MOD_DEGREES (3602879701896397 / 36028797018963968)
      = some (879609302221 / 8796093022208) ∧
    ¬ ∃ k : Int, (3602879701896397 / 36028797018963968 : ℚ) - 879609302221 / 8796093022208
      = (k : ℚ) * 360 := by
  have hm : intMul 2 DEGREES_PER_ROTATION = 720 := by decide
  have hdeg : DEGREES_PER_ROTATION = 360 := rfl
  have hr : roundDouble (3602879701896397 / 36028797018963968 + 720)
      = 6334066585291981 / 8796093022208 := by
    rw [roundDouble_eq _ 9 6334066585291981 (by norm_num)
      (by rw [abs_of_pos (by norm_num)]; norm_num)
      (by rw [abs_of_pos (by norm_num)]; norm_num)
      (roundHalfEven_of_gt_half _ _ (by norm_num) (by norm_num))]
    norm_num
  have hadd : dblAdd (3602879701896397 / 36028797018963968) 720
      = some (6334066585291981 / 8796093022208) := by
    unfold dblAdd
    rw [hr, if_pos (by rw [abs_of_pos (by norm_num)]; unfold DBL_MAX; norm_num)]
  refine ⟨?_, by norm_num, hadd, ?_, ?_⟩
  · exact isDouble_of_grid _ (-4) 7205759403792794 (by norm_num)
      (by rw [abs_of_pos (by norm_num)]; norm_num)
      (by rw [abs_of_pos (by norm_num)]; norm_num)
      (by norm_num) (by rw [abs_of_pos (by norm_num)]; unfold DBL_MAX; norm_num)
  · unfold MOD_DEGREES
    rw [hm, hdeg]
    push_cast
    rw [hadd]
    show some (fmod (6334066585291981 / 8796093022208) 360) = _
    rw [fmod_eq _ _ 2 (by norm_num) (by norm_num) (by norm_num) (by norm_num)]
    norm_num
  · rintro ⟨k, hk⟩
    have h2 : ((360 * 36028797018963968 * k : Int) : ℚ) = ((-819 : Int) : ℚ) := by
      push_cast
      linarith
    have h3 : 360 * 36028797018963968 * k = -819 := by exact_mod_cast h2
    omega

/-- C6 (amended): for every finite `double` angle `≥ -720`, the `double` sum
`s = angle + 720` is finite, `MOD_DEGREES(angle) = fmod(s, 360)` lies in
`[0, 360)` and `s - MOD_DEGREES(angle)` is an integer multiple of `360`;
`angle - MOD_DEGREES(angle)` is an integer multiple of `360` whenever the sum
is exact (`s` equals the real number `angle + 720`). -/
theorem mod_degrees_of_double (angle : ℚ) (hd : isDouble angle) (h : -720 ≤ angle) :
    ∃ s m : ℚ, dblAdd angle 720 = some s ∧ MOD_DEGREES angle = some m ∧
      0 ≤ m ∧ m < 360 ∧ (∃ k : Int, s - m = (k : ℚ) * 360) ∧
      (s = angle + 720 → ∃ k : Int, angle - m = (k : ℚ) * 360) := by
  have hm : intMul 2 DEGREES_PER_ROTATION = 720 := by decide
  have hdeg : DEGREES_PER_ROTATION = 360 := rfl
  have hx0 : 0 ≤ angle + 720 := by linarith
  have hs0 : 0 ≤ roundDouble (angle + 720) := roundDouble_nonneg hx0
  have hsmax : roundDouble (angle + 720) ≤ DBL_MAX := by
    rcases eq_or_lt_of_le hx0 with h0 | hpos
    · rw [← h0, roundDouble_zero]; unfold DBL_MAX; norm_num
    · apply roundDouble_le_max hpos
      have := le_trans (le_abs_self angle) hd.2
      linarith
  have hadd : dblAdd angle 720 = some (roundDouble (angle + 720)) := by
    unfold dblAdd
    rw [abs_of_nonneg hs0, if_pos hsmax]
  have hq : (0 : ℚ) ≤ roundDouble (angle + 720) / 360 := div_nonneg hs0 (by norm_num)
  have f1 : ((⌊roundDouble (angle + 720) / 360⌋ : Int) : ℚ) ≤ roundDouble (angle + 720) / 360 :=
    Int.floor_le _
  have f2 : roundDouble (angle + 720) / 360
      < ((⌊roundDouble (angle + 720) / 360⌋ : Int) : ℚ) + 1 := Int.lt_floor_add_one _
  rw [le_div_iff₀ (by norm_num)] at f1
  rw [div_lt_iff₀ (by norm_num)] at f2
  have hf : fmod (roundDouble (angle + 720)) 360
      = roundDouble (angle + 720) - (⌊roundDouble (angle + 720) / 360⌋ : ℚ) * 360 := by
    unfold fmod
    rw [truncQ_of_nonneg hq]
  refine ⟨roundDouble (angle + 720), fmod (roundDouble (angle + 720)) 360, hadd, ?_, ?_, ?_, ?_, ?_⟩
  · unfold MOD_DEGREES
    rw [hm, hdeg]
    push_cast
    rw [hadd]
    rfl
  · rw [hf]; linarith
  · rw [hf]; linarith
  · exact ⟨⌊roundDouble (angle + 720) / 360⌋, by rw [hf]; ring⟩
  · intro hex
    refine ⟨⌊roundDouble (angle + 720) / 360⌋ - 2, ?_⟩
    rw [hf]
    push_cast
    linarith

/-- Degree wrapping of the `double` angle `-450`. -/
theorem mod_degrees_of_double_witness :
    ∃ s m : ℚ, dblAdd (-450) 720 = some s ∧ MOD_DEGREES (-450) = some m ∧
      0 ≤ m ∧ m < 360 ∧ (∃ k : Int, s - m = (k : ℚ) * 360) ∧
      (s = -450 + 720 → ∃ k : Int, -450 - m = (k : ℚ) * 360) :=
  mod_degrees_of_double (-450)
    (isDouble_of_grid (-450) 8 (-7916483719987200) (by norm_num) (by norm_num) (by norm_num)
      (by norm_num) (by unfold DBL_MAX; norm_num))
    (by norm_num)

/-- C8 (counterexample): `r = 2^30` is an `int` but `2 * r` wraps to `-2^31`,
so `SCALE_RAW_TO_DEGREES(2 * r)` is `-188743680` while
`SCALE_RAW_TO_DEGREES2048(r)` is `188743680`; and for the non-negative angle
`188743680` the fine value `2^31` does not fit in an `int`, so
`SCALE_DEGREES_TO_RAW` has no result, while `SCALE_DEGREES_TO_RAW2048` returns
`2^30`. -/
theorem scale_resolutions_out_of_int_range :
    (isInt 1073741824 ∧
      SCALE_RAW_TO_DEGREES (intMul 2 1073741824) = -188743680 ∧
      SCALE_RAW_TO_DEGREES2048 1073741824 = 188743680) ∧
    ((0 : ℚ) ≤ 188743680 ∧
      SCALE_DEGREES_TO_RAW 188743680 = none ∧
      SCALE_DEGREES_TO_RAW2048 188743680 = some 1073741824) := by
  have hl : LINES_PER_ROTATION = 2048 := rfl
  have hs : SPOKES = 4096 := rfl
  have hd : DEGREES_PER_ROTATION = 360 := rfl
  have hw : intMul 2 1073741824 = -2147483648 := by decide
  refine ⟨⟨by decide, ?_, ?_⟩, by norm_num, ?_, ?_⟩
  · unfold SCALE_RAW_TO_DEGREES
    rw [hw, hs, hd]
    norm_num
  · unfold SCALE_RAW_TO_DEGREES2048
    rw [hl, hd]
    norm_num
  · unfold SCALE_DEGREES_TO_RAW
    rw [hs, hd]
    have e : (188743680 : ℚ) * ((4096 : Int) : ℚ) / ((360 : Int) : ℚ)
        = ((2147483648 : Int) : ℚ) := by norm_num
    rw [e]
    unfold castInt
    rw [truncQ_intCast]
    decide
  · unfold SCALE_DEGREES_TO_RAW2048
    rw [hl, hd]
    have e : (188743680 : ℚ) * ((2048 : Int) : ℚ) / ((360 : Int) : ℚ)
        = ((1073741824 : Int) : ℚ) := by norm_num
    rw [e]
    exact castInt_intCast _ (by decide)

/-- C8 (amended): the two resolutions agree within the range of `int`: for
an `int` `r` with `-2^30 ≤ r < 2^30` (so that `2 * r` is an `int`),
`SCALE_RAW_TO_DEGREES(2 * r) = SCALE_RAW_TO_DEGREES2048(r)`; and for an angle
`a` with `0 ≤ a < 188743680` (so that `a * 4096 / 360 < 2^31`), both casts
are defined and `SCALE_DEGREES_TO_RAW2048(a) = SCALE_DEGREES_TO_RAW(a) / 2`
with integer division. -/
theorem scale_resolutions_consistent (r : Int) (a : ℚ)
    (hr1 : -1073741824 ≤ r) (hr2 : r < 1073741824)
    (ha1 : 0 ≤ a) (ha2 : a < 188743680) :
    SCALE_RAW_TO_DEGREES (intMul 2 r) = SCALE_RAW_TO_DEGREES2048 r ∧
    ∃ fine : Int, SCALE_DEGREES_TO_RAW a = some fine ∧
      SCALE_DEGREES_TO_RAW2048 a = some (intDiv fine 2) := by
  have hl : LINES_PER_ROTATION = 2048 := rfl
  have hs : SPOKES = 4096 := rfl
  have hd : DEGREES_PER_ROTATION = 360 := rfl
  constructor
  · have hw : intMul 2 r = 2 * r := by
      unfold intMul
      apply wrapInt_of_isInt
      unfold isInt INT_MIN INT_MAX
      omega
    unfold SCALE_RAW_TO_DEGREES SCALE_RAW_TO_DEGREES2048
    rw [hw, hl, hs, hd]
    push_cast
    ring
  · unfold SCALE_DEGREES_TO_RAW SCALE_DEGREES_TO_RAW2048
    rw [hl, hs, hd]
    push_cast
    have hy0 : (0 : ℚ) ≤ a * 2048 / 360 := by positivity
    have hf0 : (0 : ℚ) ≤ a * 4096 / 360 := by positivity
    have hf1 : a * 4096 / 360 < 2147483648 := by
      rw [div_lt_iff₀ (by norm_num)]; linarith
    have hy1 : a * 2048 / 360 < 2147483648 := by
      rw [div_lt_iff₀ (by norm_num)]; linarith
    have e : a * 4096 / 360 = 2 * (a * 2048 / 360) := by ring
    refine ⟨⌊a * 4096 / 360⌋, castInt_of_nonneg hf0 hf1, ?_⟩
    rw [castInt_of_nonneg hy0 hy1, floor_half, ← e]
    unfold intDiv
    rw [Int.tdiv_eq_ediv (Int.floor_nonneg.mpr hf0) (by norm_num)]

/-- Consistency of the two resolutions at raw bearing `100` and angle `45`. -/
theorem scale_resolutions_consistent_witness :
    SCALE_RAW_TO_DEGREES (intMul 2 100) = SCALE_RAW_TO_DEGREES2048 100 ∧
    ∃ fine : Int, SCALE_DEGREES_TO_RAW 45 = some fine ∧
      SCALE_DEGREES_TO_RAW2048 45 = some (intDiv fine 2) :=
  scale_resolutions_consistent 100 45 (by decide) (by decide) (by norm_num) (by norm_num)

/-! ## Heading timeout -/

/-- C4 (counterexample): with the last update at time `0` and the deadline
`0 + HEADING_TIMEOUT`, at time `5` the elapsed time `5 - 0` does not exceed
`5`, yet `TIMED_OUT` holds and `NOT_TIMED_OUT` does not. -/
theorem timed_out_at_deadline :
    TIMED_OUT 5 (0 + HEADING_TIMEOUT) = true ∧
    NOT_TIMED_OUT 5 (0 + HEADING_TIMEOUT) = false ∧
    ¬ ((5 : Int) - 0 > 5) ∧
    ¬ (TIMED_OUT 5 (0 + HEADING_TIMEOUT) = true ↔ (5 : Int) - 0 > 5) := by
  decide

/-- C4 (amended): with the deadline `last_update_time + HEADING_TIMEOUT`,
`TIMED_OUT(now, deadline)` holds if and only if `now - last_update_time ≥ 5`,
and `NOT_TIMED_OUT(now, deadline)` if and only if
`now - last_update_time < 5`. -/
theorem timed_out_iff_elapsed_ge (last_update_time now : Int) :
    (TIMED_OUT now (last_update_time + HEADING_TIMEOUT) = true ↔
      now - last_update_time ≥ 5) ∧
    (NOT_TIMED_OUT now (last_update_time + HEADING_TIMEOUT) = true ↔
      now - last_update_time < 5) := by
  unfold NOT_TIMED_OUT TIMED_OUT HEADING_TIMEOUT
  simp only [decide_eq_true_eq, Bool.not_eq_true', decide_eq_false_iff_not]
  omega

/-! ## History register -/

/-- C5: history register. For every initial value `h` and bits contributed
by `k ≤ 8` consecutive rotations (oldest first), bit `j < k` of the register
is the bit of rotation `k - 1 - j`, the most recent one being the least
significant; and after at least 8 rotations the register is determined by the
last 8 bits `recent` alone, whatever the initial value and the older bits. -/
theorem history_register_bits (h h' : Nat) (bits older older' recent : List Bool) (j : Nat)
    (hk : bits.length ≤ 8) (hj : j < bits.length) (hr : recent.length = 8) :
    bits[bits.length - 1 - j]? = some ((historyAfter h bits).testBit j) ∧
    historyAfter h (older ++ recent) = historyAfter h' (older' ++ recent) := by
  refine ⟨historyAfter_testBit h bits j hj (by omega), ?_⟩
  unfold historyAfter
  rw [List.foldl_append, List.foldl_append]
  exact historyAfter_length_eight _ _ recent hr

/-- History register after three rotations from `0xAB`, and after ten
rotations compared with eight. -/
theorem history_register_bits_witness :
    [true, false, true][[true, false, true].length - 1 - 0]?
      = some ((historyAfter 171 [true, false, true]).testBit 0) ∧
    historyAfter 171 ([true, true] ++ [true, false, false, true, false, true, true, false])
      = historyAfter 0 ([] ++ [true, false, false, true, false, true, true, false]) :=
  history_register_bits 171 0 [true, false, true] [true, true] [] [true, false, false, true, false, true, true, false]
    0 (by decide) (by decide) (by decide)

/-! ## Variation sources -/

/-- C7: the enumerator values of `VariationSource` increase strictly along
NONE, NMEA, FIX, WMM, and a source has higher priority than another
(WMM > FIX > NMEA > NONE) if and only if its enumerator value is greater. -/
theorem variation_source_priority_iff_value :
    (VariationSource.VARIATION_SOURCE_NONE.toInt < VariationSource.VARIATION_SOURCE_NMEA.toInt ∧
     VariationSource.VARIATION_SOURCE_NMEA.toInt < VariationSource.VARIATION_SOURCE_FIX.toInt ∧
     VariationSource.VARIATION_SOURCE_FIX.toInt < VariationSource.VARIATION_SOURCE_WMM.toInt) ∧
    ∀ a b : VariationSource, specHigherPriority a b = true ↔ a.toInt > b.toInt := by
  refine ⟨by decide, ?_⟩
  intro a b
  cases a <;> cases b <;> decide

/-! ## The `HasBitCount2` table -/

/-- C9: for every index `i` in `0..7` the table has an entry, and the entry
is true if and only if `i` has two or more 1 bits in binary. -/
theorem hasBitCount2_iff (i : Nat) (hi : i < 8) :
    ∃ b, HasBitCount2[i]? = some b ∧ (b = true ↔ 2 ≤ bitCount i) := by
  interval_cases i
  · exact ⟨false, by decide, by decide⟩
  · exact ⟨false, by decide, by decide⟩
  · exact ⟨false, by decide, by decide⟩
  · exact ⟨true, by decide, by decide⟩
  · exact ⟨false, by decide, by decide⟩
  · exact ⟨true, by decide, by decide⟩
  · exact ⟨true, by decide, by decide⟩
  · exact ⟨true, by decide, by decide⟩

/-- Table entry at index `5` (binary 101). -/
theorem hasBitCount2_iff_witness :
    ∃ b, HasBitCount2[5]? = some b ∧ (b = true ↔ 2 ≤ bitCount 5) :=
  hasBitCount2_iff 5 (by decide)

/-! ## On-screen predicates -/

/-- C10: for every settings value and every radar index `r` in
`[0, RADARS)`, if `IsOverlayOnScreen(r)` holds then `IsRadarOnScreen(r)`
returns true. -/
theorem overlay_on_screen_imp_radar_on_screen (m_settings : PersistentSettings) (r : Int)
    (h0 : 0 ≤ r) (h1 : r < (RADARS : Int))
    (hov : IsOverlayOnScreen m_settings r = true) :
    IsRadarOnScreen m_settings r = some true := by
  unfold IsOverlayOnScreen at hov
  simp only [Bool.and_eq_true, decide_eq_true_eq, beq_iff_eq] at hov
  obtain ⟨hshow, hco⟩ := hov
  unfold IsRadarOnScreen readRadarArray
  simp [hshow, hco, h0, h1]

/-- Radar `1` of `overlaySettings`: its window is hidden and it is the chart
overlay. -/
theorem overlay_on_screen_imp_radar_on_screen_witness :
    IsOverlayOnScreen overlaySettings 1 = true ∧
    IsRadarOnScreen overlaySettings 1 = some true :=
  ⟨by decide,
   overlay_on_screen_imp_radar_on_screen overlaySettings 1 (by decide) (by decide) (by decide)⟩

end BR24
